import Mathlib

/-!
Verification of the pb_cap_analysis repository.

This file contains a shallow embedding of the algorithmic core of the
repository (src/analyze_enrichment.py and src/extract_microscopy_data.py)
together with theorems about the embedded functions.

Numeric modelling conventions:
  * Python/numpy floating point arithmetic is modelled over the rationals;
    intensity samples, histogram bin edges and smoothed counts are values
    of type ℚ.  The float literal 0.05 used for the prominence threshold
    is modelled as the rational 5/100.
  * The Gaussian smoothing kernel of scipy.ndimage.gaussian_filter1d with
    sigma = 2 and the default truncate = 4.0 has radius 8 and irrational
    (exp-based) weights.  The kernel is therefore a parameter
    w : ℕ → ℚ (weight at absolute offset 0..8); the predicate KGauss
    records the facts that hold for the true Gaussian kernel and that the
    theorems rely on: the weights are strictly decreasing on 0..8 and the
    outermost weight is positive.
  * External collaborators of the core (polygon rasterization from
    skimage.draw.polygon, numpy's sqrt used for the standard deviation)
    are parameters of the embedded analyzer, exactly at the call boundary
    where the source invokes them.
-/

/- ---------------------------------------------------------------------
   Basic list helpers mirroring numpy reductions
   --------------------------------------------------------------------- -/

/-- Mirrors numpy.max over a 1D array (0 on the empty list, unused there). -/
def maxQ : List ℚ → ℚ
  | [] => 0
  | a :: t => t.foldl max a

/-- Mirrors the value selected by peak_positions[np.argsort(peak_positions)[0]]
in analyze_enrichment.py (the minimum of the array). -/
def minQ : List ℚ → ℚ
  | [] => 0
  | a :: t => t.foldl min a

/-- Element access with default 0, mirroring an in-bounds numpy array read. -/
def xget (xs : List ℚ) (i : ℕ) : ℚ := xs.getD i 0

/-- Step of the first-maximum scan: replace the best only on a strict
increase, so the first occurrence of the maximum wins, as np.argmax does. -/
def argmaxGo (l : List ℚ) (bi : ℕ) (bv : ℚ) (i : ℕ) : ℕ :=
  match l with
  | [] => bi
  | a :: t => if bv < a then argmaxGo t i a (i + 1) else argmaxGo t bi bv (i + 1)

/-- Mirrors np.argmax on a 1D array: index of the first maximum. -/
def argmaxQ : List ℚ → ℕ
  | [] => 0
  | a :: t => argmaxGo t 0 a 1

/- ---------------------------------------------------------------------
   np.histogram with range (0, data_max), as used in find_gaussian_peaks
   --------------------------------------------------------------------- -/

/-- Bin edge k of np.histogram over the range from lo to hi with nb bins. -/
def npEdges (lo hi : ℚ) (nb : ℕ) (k : ℕ) : ℚ := lo + k * (hi - lo) / nb

/-- Mirrors np.histogram(data, bins = nb, range = (0, data_max)) from
find_gaussian_peaks, returning raw counts and bin centers.  numpy places a
sample in bin k when edge k ≤ x < edge (k+1), except that the last bin also
includes its right edge; samples outside the range are not counted.  When
data_max = 0 numpy widens the degenerate range (0, 0) to (-1/2, 1/2). -/
def npHistogram (data : List ℚ) (nb : ℕ) : List ℕ × List ℚ :=
  let hi0 := maxQ data
  let lo : ℚ := if hi0 = 0 then -(1/2) else 0
  let hi : ℚ := if hi0 = 0 then 1/2 else hi0
  let counts := (List.range nb).map fun k =>
    data.countP fun x =>
      decide (npEdges lo hi nb k ≤ x) &&
        (decide (x < npEdges lo hi nb (k+1)) ||
          (decide (k + 1 = nb) && decide (x ≤ npEdges lo hi nb (k+1))))
  let centers := (List.range nb).map fun k =>
    (npEdges lo hi nb k + npEdges lo hi nb (k+1)) / 2
  (counts, centers)

/- ---------------------------------------------------------------------
   scipy.ndimage.gaussian_filter1d with the default reflect boundary
   --------------------------------------------------------------------- -/

/-- Boundary extension of a finite signal in scipy's default reflect mode
(d c b a | a b c d | d c b a): index -1-k reads element k and index n+k
reads element n-1-k.  Only a single reflection is needed here because the
kernel radius (8) is smaller than the signal length (50). -/
def reflectExt (xs : List ℚ) (e : ℤ) : ℚ :=
  if e < 0 then xs.getD (-1 - e).toNat 0
  else if e < xs.length then xs.getD e.toNat 0
  else xs.getD (2 * (xs.length : ℤ) - 1 - e).toNat 0

/-- Mirrors scipy.ndimage.gaussian_filter1d(xs, sigma) as a correlation of
the signal with a symmetric kernel of the given radius; w j is the kernel
weight at absolute offset j.  For sigma = 2 and the default truncate = 4.0
the radius is 8. -/
def gaussianFilter1dW (w : ℕ → ℚ) (radius : ℕ) (xs : List ℚ) : List ℚ :=
  (List.range xs.length).map fun (i : ℕ) =>
    ((List.range (2 * radius + 1)).map fun (j : ℕ) =>
      w ((j : ℤ) - (radius : ℤ)).natAbs *
        reflectExt xs ((i : ℤ) + (j : ℤ) - (radius : ℤ))).sum

/- ---------------------------------------------------------------------
   scipy.signal.find_peaks: local maxima with plateau midpoints,
   prominences, and selection by minimum prominence
   --------------------------------------------------------------------- -/

/-- Length of the leading run of elements equal to v. -/
def eqRun (v : ℚ) : List ℚ → ℕ
  | [] => 0
  | a :: t => if a = v then eqRun v t + 1 else 0

/-- Right end of the plateau that starts at index l, scanning only up to
index length - 2, exactly like the inner loop of scipy's local maxima
search. -/
def plateauEnd (xs : List ℚ) (l : ℕ) : ℕ :=
  l + eqRun (xget xs l) ((xs.drop (l + 1)).take (xs.length - l - 2))

/-- Whether scipy's local maxima scan emits a peak for the plateau starting
at index l: l is interior, the signal strictly rises into l, and strictly
falls right after the plateau. -/
def isPeakStart (xs : List ℚ) (l : ℕ) : Bool :=
  decide (1 ≤ l) && decide (l + 1 < xs.length) &&
    decide (xget xs (l - 1) < xget xs l) &&
    decide (xget xs (plateauEnd xs l + 1) < xget xs l)

/-- Mirrors scipy's _local_maxima_1d: for each qualifying plateau the
midpoint (rounded down) is reported, in increasing order. -/
def localMaxima (xs : List ℚ) : List ℕ :=
  ((List.range xs.length).filter (isPeakStart xs)).map fun l =>
    (l + plateauEnd xs l) / 2

/-- Mirrors scipy's _peak_prominences for the peak at index p: scan left
and right while the signal stays at or below the peak height, take the
minimum on each side, and subtract the larger of the two minima from the
peak height. -/
def promAt (xs : List ℚ) (p : ℕ) : ℚ :=
  let v := xget xs p
  let leftSeg := ((xs.take p).reverse).takeWhile fun a => decide (a ≤ v)
  let rightSeg := (xs.drop (p + 1)).takeWhile fun a => decide (a ≤ v)
  v - max (leftSeg.foldl min v) (rightSeg.foldl min v)

/-- Mirrors scipy.signal.find_peaks(xs, prominence = threshold): the local
maxima whose prominence is at least the threshold, with their
prominences. -/
def findPeaksProm (xs : List ℚ) (threshold : ℚ) : List ℕ × List ℚ :=
  let kept := ((localMaxima xs).map fun p => (p, promAt xs p)).filter
    fun pr => decide (threshold ≤ pr.2)
  (kept.map Prod.fst, kept.map Prod.snd)

/- ---------------------------------------------------------------------
   Background selection (lines 196-222 of analyze_enrichment.py)
   --------------------------------------------------------------------- -/

/-- Keep the incumbent unless the candidate has strictly larger second
component; this reproduces np.argmax's first-maximum choice on the
prominence array. -/
def mpStep (b x : ℚ × ℚ) : ℚ × ℚ := if b.2 < x.2 then x else b

/-- Fold of mpStep threaded through an optional accumulator. -/
def mpGo (acc : Option (ℚ × ℚ)) (l : List (ℚ × ℚ)) : Option (ℚ × ℚ) :=
  l.foldl (fun ob x =>
    match ob with
    | none => some x
    | some b => some (mpStep b x)) acc

/-- The (position, prominence) pair of the first most prominent peak of the
list, mirroring positions_below[np.argmax(prominences_below)]. -/
def mostProminent (l : List (ℚ × ℚ)) : ℚ × ℚ := (mpGo none l).getD (0, 0)

/-- First-maximum step on (bin center, raw count) pairs. -/
def binStep (b x : ℚ × ℕ) : ℚ × ℕ := if b.2 < x.2 then x else b

/-- The (center, count) pair of the first bin with the largest raw count,
mirroring bin_centers_below[np.argmax(hist_below)]. -/
def topRawBin : List (ℚ × ℕ) → ℚ × ℕ
  | [] => (0, 0)
  | a :: t => t.foldl binStep a

/-- Mirrors the background-selection block of find_gaussian_peaks
(lines 196-222): with a ceiling, take the most prominent peak strictly
below it; failing that, the bin center with the highest raw count strictly
below it; failing that, and also when no ceiling is given, the lowest peak
position. -/
def selectBackground (positions proms : List ℚ) (centers : List ℚ)
    (hist : List ℕ) (mb : Option ℚ) : ℚ :=
  match mb with
  | some m =>
    if ((positions.zip proms).filter fun pr => decide (pr.1 < m)) = [] then
      if ((centers.zip hist).filter fun ch => decide (ch.1 < m)) = [] then
        minQ positions
      else (topRawBin ((centers.zip hist).filter fun ch => decide (ch.1 < m))).1
    else (mostProminent ((positions.zip proms).filter fun pr => decide (pr.1 < m))).1
  | none => minQ positions

/- ---------------------------------------------------------------------
   Reporting order (argsort of prominences, descending) and the record
   returned by find_gaussian_peaks
   --------------------------------------------------------------------- -/

/-- Insertion of one element into a list sorted by the boolean relation. -/
def insertBy (le : α → α → Bool) (x : α) : List α → List α
  | [] => [x]
  | y :: t => if le x y then x :: y :: t else y :: insertBy le x t

/-- Insertion sort by a boolean relation. -/
def sortByB (le : α → α → Bool) : List α → List α
  | [] => []
  | x :: t => insertBy le x (sortByB le t)

/-- Mirrors np.argsort(proms)[::-1]: indices ordered by descending
prominence, larger index first among ties (the reversal of a stable
ascending sort). -/
def argsortDesc (proms : List ℚ) : List ℕ :=
  sortByB (fun i j =>
      decide (proms.getD j 0 < proms.getD i 0) ||
        (decide (proms.getD i 0 = proms.getD j 0) && decide (j < i)))
    (List.range proms.length)

/-- The dictionary returned by find_gaussian_peaks.  In the fallback branch
(no detected peaks) the source omits the peak_indices key; that branch is
modelled with an empty peak_indices list. -/
structure PeakResult where
  n_peaks : ℕ
  peaks : List ℚ
  hist : List ℕ
  bin_centers : List ℚ
  hist_smooth : List ℚ
  peak_indices : List ℕ
  background_value : ℚ
  deriving Repr, DecidableEq

/-- The raw histogram counts built by find_gaussian_peaks. -/
def histRawOf (data : List ℚ) (nb : ℕ) : List ℕ := (npHistogram data nb).1

/-- The bin centers built by find_gaussian_peaks. -/
def binCentersOf (data : List ℚ) (nb : ℕ) : List ℚ := (npHistogram data nb).2

/-- The smoothed histogram built by find_gaussian_peaks. -/
def histSmoothOf (w : ℕ → ℚ) (data : List ℚ) (nb : ℕ) : List ℚ :=
  gaussianFilter1dW w 8 ((histRawOf data nb).map fun (n : ℕ) => (n : ℚ))

/-- The peak indices and prominences produced by the two-pass prominence
ladder of find_gaussian_peaks: first pass at 5 percent of the maximum
smoothed count, second pass at absolute prominence 1 only if the first
found nothing. -/
def detectedPeaksProms (w : ℕ → ℚ) (data : List ℚ) (nb : ℕ) :
    List ℕ × List ℚ :=
  if (findPeaksProm (histSmoothOf w data nb)
      (maxQ (histSmoothOf w data nb) * (5/100))).1 = [] then
    findPeaksProm (histSmoothOf w data nb) 1
  else
    findPeaksProm (histSmoothOf w data nb)
      (maxQ (histSmoothOf w data nb) * (5/100))

/-- The positions (bin-center intensity values) of the detected peaks. -/
def peakPositions (w : ℕ → ℚ) (data : List ℚ) (nb : ℕ) : List ℚ :=
  (detectedPeaksProms w data nb).1.map fun p => (binCentersOf data nb).getD p 0

/-- The (position, prominence) pairs of the detected peaks. -/
def peakPairs (w : ℕ → ℚ) (data : List ℚ) (nb : ℕ) : List (ℚ × ℚ) :=
  (peakPositions w data nb).zip (detectedPeaksProms w data nb).2

/-- The background of the no-peaks fallback branch: the center of the bin
at np.argmax(hist_smooth). -/
def fallbackBG (w : ℕ → ℚ) (data : List ℚ) (nb : ℕ) : ℚ :=
  (binCentersOf data nb).getD (argmaxQ (histSmoothOf w data nb)) 0

/-- The background value selected when peaks were detected: the
selection block of find_gaussian_peaks applied to the detected peaks. -/
def bgOf (w : ℕ → ℚ) (data : List ℚ) (nb : ℕ) (mb : Option ℚ) : ℚ :=
  selectBackground (peakPositions w data nb) (detectedPeaksProms w data nb).2
    (binCentersOf data nb) (histRawOf data nb) mb

/-- The detected peak indices reordered by descending prominence for the
report fields. -/
def sortedPeakIdx (w : ℕ → ℚ) (data : List ℚ) (nb : ℕ) : List ℕ :=
  (argsortDesc (detectedPeaksProms w data nb).2).map fun t =>
    (detectedPeaksProms w data nb).1.getD t 0

/-- The peak positions reordered by descending prominence. -/
def reportPositions (w : ℕ → ℚ) (data : List ℚ) (nb : ℕ) : List ℚ :=
  (sortedPeakIdx w data nb).map fun p => (binCentersOf data nb).getD p 0

/-- Shallow embedding of find_gaussian_peaks(data, n_bins, max_background)
from analyze_enrichment.py, with the smoothing kernel w as a parameter.
The two branches mirror the source: the early return when no peaks were
found after both passes (lines 178-189), and the main return
(lines 230-238) whose background value comes from the selection block. -/
def find_gaussian_peaks (w : ℕ → ℚ) (data : List ℚ) (nb : ℕ)
    (mb : Option ℚ) : Option PeakResult :=
  if data = [] then none
  else if (detectedPeaksProms w data nb).1 = [] then
    some ⟨1, [fallbackBG w data nb], histRawOf data nb, binCentersOf data nb,
      histSmoothOf w data nb, [], fallbackBG w data nb⟩
  else
    some ⟨(detectedPeaksProms w data nb).1.length,
      if 2 ≤ (detectedPeaksProms w data nb).1.length then
        (reportPositions w data nb).take 2
      else reportPositions w data nb,
      histRawOf data nb, binCentersOf data nb, histSmoothOf w data nb,
      if 2 ≤ (detectedPeaksProms w data nb).1.length then
        (sortedPeakIdx w data nb).take 2
      else sortedPeakIdx w data nb,
      bgOf w data nb mb⟩

/-- The qualitative facts about scipy's Gaussian kernel (sigma = 2,
radius 8) that the theorems about smoothing rely on: weights strictly
decrease with the absolute offset and the outermost weight is positive. -/
def KGauss (w : ℕ → ℚ) : Prop :=
  (∀ j, j < 8 → w (j + 1) < w j) ∧ 0 < w 8

/- ---------------------------------------------------------------------
   Lemmas about the selection primitives
   --------------------------------------------------------------------- -/

theorem foldl_min_le_init (t : List ℚ) : ∀ a : ℚ, t.foldl min a ≤ a := by
  induction t with
  | nil => intro a; exact le_refl a
  | cons b t ih =>
    intro a
    calc (b :: t).foldl min a = t.foldl min (min a b) := rfl
    _ ≤ min a b := ih (min a b)
    _ ≤ a := min_le_left a b

theorem foldl_min_le_of_mem (t : List ℚ) :
    ∀ a x : ℚ, x ∈ t → t.foldl min a ≤ x := by
  induction t with
  | nil => intro a x hx; exact absurd hx (List.not_mem_nil x)
  | cons b t ih =>
    intro a x hx
    rcases List.mem_cons.mp hx with h | h
    · subst h
      calc (x :: t).foldl min a = t.foldl min (min a x) := rfl
      _ ≤ min a x := foldl_min_le_init t (min a x)
      _ ≤ x := min_le_right a x
    · exact ih (min a b) x h

theorem foldl_min_eq_or_mem (t : List ℚ) :
    ∀ a : ℚ, t.foldl min a = a ∨ t.foldl min a ∈ t := by
  induction t with
  | nil => intro a; exact Or.inl rfl
  | cons b t ih =>
    intro a
    rcases ih (min a b) with h | h
    · rcases le_total a b with hab | hab
      · left
        calc (b :: t).foldl min a = t.foldl min (min a b) := rfl
        _ = min a b := h
        _ = a := min_eq_left hab
      · right
        refine List.mem_cons.mpr (Or.inl ?_)
        calc (b :: t).foldl min a = t.foldl min (min a b) := rfl
        _ = min a b := h
        _ = b := min_eq_right hab
    · exact Or.inr (List.mem_cons.mpr (Or.inr h))

theorem minQ_mem {l : List ℚ} (h : l ≠ []) : minQ l ∈ l := by
  match l, h with
  | a :: t, _ =>
    rcases foldl_min_eq_or_mem t a with h1 | h1
    · rw [minQ, h1]; exact List.mem_cons_self a t
    · rw [minQ]; exact List.mem_cons.mpr (Or.inr h1)

theorem minQ_le {l : List ℚ} {x : ℚ} (hx : x ∈ l) : minQ l ≤ x := by
  match l, hx with
  | a :: t, hx =>
    rcases List.mem_cons.mp hx with h | h
    · rw [minQ, h]; exact foldl_min_le_init t a
    · exact foldl_min_le_of_mem t a x h

theorem mpGo_some (l : List (ℚ × ℚ)) :
    ∀ b : ℚ × ℚ, ∃ c, mpGo (some b) l = some c ∧ (c = b ∨ c ∈ l) ∧
      b.2 ≤ c.2 ∧ ∀ x ∈ l, x.2 ≤ c.2 := by
  induction l with
  | nil =>
    intro b
    exact ⟨b, rfl, Or.inl rfl, le_refl _, fun x hx => absurd hx (List.not_mem_nil x)⟩
  | cons y t ih =>
    intro b
    obtain ⟨c, hc, hmem, hle, hall⟩ := ih (mpStep b y)
    have hstep : mpGo (some b) (y :: t) = mpGo (some (mpStep b y)) t := rfl
    have hcases : mpStep b y = b ∨ mpStep b y = y := by
      rw [mpStep]; split
      · exact Or.inr rfl
      · exact Or.inl rfl
    have hb2 : b.2 ≤ (mpStep b y).2 := by
      rw [mpStep]; split
      · exact le_of_lt (by assumption)
      · exact le_refl _
    have hy2 : y.2 ≤ (mpStep b y).2 := by
      rw [mpStep]; split
      · exact le_refl _
      · exact le_of_not_lt (by assumption)
    refine ⟨c, by rw [hstep]; exact hc, ?_, le_trans hb2 hle, ?_⟩
    · rcases hmem with h | h
      · rcases hcases with h2 | h2
        · exact Or.inl (by rw [h, h2])
        · exact Or.inr (List.mem_cons.mpr (Or.inl (by rw [h, h2])))
      · exact Or.inr (List.mem_cons.mpr (Or.inr h))
    · intro x hx
      rcases List.mem_cons.mp hx with h | h
      · rw [h]; exact le_trans hy2 hle
      · exact hall x h

theorem mostProminent_spec {l : List (ℚ × ℚ)} (h : l ≠ []) :
    mostProminent l ∈ l ∧ ∀ x ∈ l, x.2 ≤ (mostProminent l).2 := by
  match l, h with
  | y :: t, _ =>
    obtain ⟨c, hc, hmem, _, hall⟩ := mpGo_some t y
    have hgo : mpGo none (y :: t) = mpGo (some y) t := rfl
    have hmp : mostProminent (y :: t) = c := by
      rw [mostProminent, hgo, hc]; rfl
    constructor
    · rw [hmp]
      rcases hmem with h1 | h1
      · exact List.mem_cons.mpr (Or.inl h1)
      · exact List.mem_cons.mpr (Or.inr h1)
    · intro x hx
      rw [hmp]
      rcases List.mem_cons.mp hx with h1 | h1
      · rw [h1]
        rcases hmem with h2 | h2
        · rw [h2]
        · obtain ⟨c2, hc2, hmem2, hle2, hall2⟩ := mpGo_some t y
          rw [hc2] at hc
          cases hc
          exact hle2
      · exact hall x h1

theorem foldl_binStep_spec (t : List (ℚ × ℕ)) :
    ∀ a : ℚ × ℕ, (t.foldl binStep a = a ∨ t.foldl binStep a ∈ t) ∧
      a.2 ≤ (t.foldl binStep a).2 ∧ ∀ x ∈ t, x.2 ≤ (t.foldl binStep a).2 := by
  induction t with
  | nil =>
    intro a
    exact ⟨Or.inl rfl, le_refl _, fun x hx => absurd hx (List.not_mem_nil x)⟩
  | cons y t ih =>
    intro a
    obtain ⟨hmem, hle, hall⟩ := ih (binStep a y)
    have hstep : (y :: t).foldl binStep a = t.foldl binStep (binStep a y) := rfl
    have hcases : binStep a y = a ∨ binStep a y = y := by
      rw [binStep]; split
      · exact Or.inr rfl
      · exact Or.inl rfl
    have ha2 : a.2 ≤ (binStep a y).2 := by
      rw [binStep]; split
      · exact Nat.le_of_lt (by assumption)
      · exact le_refl _
    have hy2 : y.2 ≤ (binStep a y).2 := by
      rw [binStep]; split
      · exact le_refl _
      · exact Nat.le_of_not_lt (by assumption)
    refine ⟨?_, le_trans ha2 hle, ?_⟩
    · rw [hstep]
      rcases hmem with h | h
      · rcases hcases with h2 | h2
        · exact Or.inl (by rw [h, h2])
        · exact Or.inr (List.mem_cons.mpr (Or.inl (by rw [h, h2])))
      · exact Or.inr (List.mem_cons.mpr (Or.inr h))
    · intro x hx
      rw [hstep]
      rcases List.mem_cons.mp hx with h | h
      · rw [h]; exact le_trans hy2 hle
      · exact hall x h

theorem topRawBin_spec {l : List (ℚ × ℕ)} (h : l ≠ []) :
    topRawBin l ∈ l ∧ ∀ x ∈ l, x.2 ≤ (topRawBin l).2 := by
  match l, h with
  | y :: t, _ =>
    obtain ⟨hmem, _, hall⟩ := foldl_binStep_spec t y
    have htb : topRawBin (y :: t) = t.foldl binStep y := rfl
    constructor
    · rw [htb]
      rcases hmem with h1 | h1
      · rw [h1]; exact List.mem_cons_self y t
      · exact List.mem_cons.mpr (Or.inr h1)
    · intro x hx
      rw [htb]
      rcases List.mem_cons.mp hx with h1 | h1
      · rw [h1]
        obtain ⟨_, hle, _⟩ := foldl_binStep_spec t y
        exact hle
      · exact hall x h1

/- ---------------------------------------------------------------------
   Claim theorems about the background selection policy
   --------------------------------------------------------------------- -/

theorem peakPositions_ne_nil {w : ℕ → ℚ} {data : List ℚ} {nb : ℕ}
    (hp : (detectedPeaksProms w data nb).1 ≠ []) :
    peakPositions w data nb ≠ [] := by
  rw [peakPositions]
  intro h
  exact hp (List.map_eq_nil_iff.mp h)

/-- C1.  Without a ceiling, find_gaussian_peaks selects the detected peak
with the lowest position (bin-center intensity), whatever the peaks'
prominences are: the returned background value is one of the detected
peak positions and is less than or equal to every detected peak
position. -/
theorem background_no_ceiling_is_lowest_peak (w : ℕ → ℚ) (data : List ℚ)
    (hd : data ≠ []) (hp : (detectedPeaksProms w data 50).1 ≠ []) :
    ∃ r, find_gaussian_peaks w data 50 none = some r ∧
      r.background_value ∈ peakPositions w data 50 ∧
      ∀ p ∈ peakPositions w data 50, r.background_value ≤ p := by
  have hbg : bgOf w data 50 none = minQ (peakPositions w data 50) := rfl
  rw [find_gaussian_peaks, if_neg hd, if_neg hp]
  refine ⟨_, rfl, ?_, ?_⟩
  · dsimp only
    rw [hbg]
    exact minQ_mem (peakPositions_ne_nil hp)
  · dsimp only
    rw [hbg]
    intro p hp2
    exact minQ_le hp2

/-- A concrete kernel with the qualitative shape of the Gaussian sigma = 2
kernel (strictly decreasing positive weights), used by concrete witness
and counterexample inputs. -/
def wG : ℕ → ℚ := fun j => [40, 35, 24, 13, 6, 5, 4, 3, 2].getD j 0

/-- C1 witness input: two clusters, the lower one less populated (hence the
lower peak is less prominent), plus one sample fixing the range. -/
def dataTwoPeaks : List ℚ :=
  List.replicate 8 10 ++ List.replicate 12 50 ++ [100]

set_option maxRecDepth 8000 in
set_option maxHeartbeats 4000000 in
unseal Rat.add Rat.mul Rat.sub Rat.inv Rat.ofScientific in
/-- Concrete witness for C1: on dataTwoPeaks the detector finds two peaks,
at positions 11 and 51, and without a ceiling selects 11 (the lower
position) although the peak at 51 is more prominent. -/
theorem background_no_ceiling_is_lowest_peak_witness :
    ∃ r, find_gaussian_peaks wG dataTwoPeaks 50 none = some r ∧
      r.background_value ∈ peakPositions wG dataTwoPeaks 50 ∧
      ∀ p ∈ peakPositions wG dataTwoPeaks 50, r.background_value ≤ p :=
  background_no_ceiling_is_lowest_peak wG dataTwoPeaks (by decide) (by decide)

theorem findPeaksProm_length (xs : List ℚ) (t : ℚ) :
    (findPeaksProm xs t).1.length = (findPeaksProm xs t).2.length := by
  simp [findPeaksProm]

theorem detectedPeaksProms_length (w : ℕ → ℚ) (data : List ℚ) (nb : ℕ) :
    (detectedPeaksProms w data nb).1.length =
      (detectedPeaksProms w data nb).2.length := by
  rw [detectedPeaksProms]
  split
  · exact findPeaksProm_length _ _
  · exact findPeaksProm_length _ _

theorem peakPositions_length (w : ℕ → ℚ) (data : List ℚ) (nb : ℕ) :
    (peakPositions w data nb).length = (detectedPeaksProms w data nb).1.length := by
  simp [peakPositions]

theorem exists_pair_mem_zip {α β : Type} :
    ∀ (l1 : List α) (l2 : List β) (p : α), p ∈ l1 →
      l1.length = l2.length → ∃ q, (p, q) ∈ l1.zip l2 := by
  intro l1
  induction l1 with
  | nil => intro l2 p hp; exact absurd hp (List.not_mem_nil p)
  | cons a t1 ih =>
    intro l2 p hp hlen
    match l2 with
    | [] => exact absurd hlen (by simp)
    | b :: t2 =>
      rcases List.mem_cons.mp hp with h | h
      · exact ⟨b, by rw [h]; exact List.mem_cons_self _ _⟩
      · obtain ⟨q, hq⟩ := ih t2 p h (by simpa using hlen)
        exact ⟨q, List.mem_cons.mpr (Or.inr hq)⟩

/-- C2.  With a ceiling, whenever at least one detected peak position is
strictly below the ceiling, find_gaussian_peaks returns the position of a
most prominent peak among those with position strictly below the ceiling:
the returned background value is the position component of a
(position, prominence) pair below the ceiling whose prominence is maximal
among all such pairs. -/
theorem background_ceiling_most_prominent_below (w : ℕ → ℚ) (data : List ℚ)
    (m : ℚ) (hd : data ≠ []) (hp : ∃ p ∈ peakPositions w data 50, p < m) :
    ∃ r, find_gaussian_peaks w data 50 (some m) = some r ∧
      ∃ pr ∈ (peakPairs w data 50).filter (fun x => decide (x.1 < m)),
        r.background_value = pr.1 ∧
        ∀ q ∈ (peakPairs w data 50).filter (fun x => decide (x.1 < m)),
          q.2 ≤ pr.2 := by
  obtain ⟨p, hpmem, hplt⟩ := hp
  have hpk : (detectedPeaksProms w data 50).1 ≠ [] := by
    intro h
    rw [peakPositions, h] at hpmem
    exact absurd hpmem (List.not_mem_nil p)
  obtain ⟨q, hmemz⟩ := exists_pair_mem_zip (peakPositions w data 50)
    (detectedPeaksProms w data 50).2 p hpmem
    (by rw [peakPositions_length]; exact detectedPeaksProms_length w data 50)
  have hfmem : (p, q) ∈
      (peakPairs w data 50).filter (fun x => decide (x.1 < m)) :=
    List.mem_filter.mpr ⟨hmemz, by simpa using hplt⟩
  have hne : (peakPairs w data 50).filter (fun x => decide (x.1 < m)) ≠ [] :=
    List.ne_nil_of_mem hfmem
  have hbg : bgOf w data 50 (some m) =
      if ((peakPairs w data 50).filter fun pr => decide (pr.1 < m)) = [] then
        (if (((binCentersOf data 50).zip (histRawOf data 50)).filter
              fun ch => decide (ch.1 < m)) = [] then
          minQ (peakPositions w data 50)
        else (topRawBin (((binCentersOf data 50).zip (histRawOf data 50)).filter
              fun ch => decide (ch.1 < m))).1)
      else (mostProminent ((peakPairs w data 50).filter
            fun pr => decide (pr.1 < m))).1 := rfl
  rw [if_neg hne] at hbg
  obtain ⟨hmem2, hmax⟩ := mostProminent_spec hne
  rw [find_gaussian_peaks, if_neg hd, if_neg hpk]
  refine ⟨_, rfl, mostProminent ((peakPairs w data 50).filter
    fun x => decide (x.1 < m)), hmem2, ?_, hmax⟩
  dsimp only
  exact hbg

set_option maxRecDepth 8000 in
set_option maxHeartbeats 4000000 in
unseal Rat.add Rat.mul Rat.sub Rat.inv Rat.ofScientific in
/-- Concrete witness for C2: on dataTwoPeaks with ceiling 60 both detected
peaks (positions 11 and 51) lie below the ceiling, and the background is
the position of the more prominent one. -/
theorem background_ceiling_most_prominent_below_witness :
    ∃ r, find_gaussian_peaks wG dataTwoPeaks 50 (some 60) = some r ∧
      ∃ pr ∈ (peakPairs wG dataTwoPeaks 50).filter (fun x => decide (x.1 < 60)),
        r.background_value = pr.1 ∧
        ∀ q ∈ (peakPairs wG dataTwoPeaks 50).filter (fun x => decide (x.1 < 60)),
          q.2 ≤ pr.2 :=
  background_ceiling_most_prominent_below wG dataTwoPeaks 60 (by decide)
    (by decide)

/- ---------------------------------------------------------------------
   The fallback ladder always yields a result (claim about error handling)
   --------------------------------------------------------------------- -/

theorem insertBy_length {α : Type} (le : α → α → Bool) (x : α) :
    ∀ l : List α, (insertBy le x l).length = l.length + 1 := by
  intro l
  induction l with
  | nil => rfl
  | cons y t ih =>
    rw [insertBy]
    split
    · rfl
    · simp only [List.length_cons, ih]

theorem sortByB_length {α : Type} (le : α → α → Bool) :
    ∀ l : List α, (sortByB le l).length = l.length := by
  intro l
  induction l with
  | nil => rfl
  | cons y t ih =>
    rw [sortByB, insertBy_length, ih, List.length_cons]

theorem reportPositions_length (w : ℕ → ℚ) (data : List ℚ) (nb : ℕ) :
    (reportPositions w data nb).length = (detectedPeaksProms w data nb).2.length := by
  simp [reportPositions, sortedPeakIdx, argsortDesc, sortByB_length]

/-- C4.  For every non-empty array of nonnegative samples (the domain of
the intensity histogram) and any optional ceiling, find_gaussian_peaks
returns a result (never an error and never the empty-input sentinel), the
result has at least one reported peak and a background value, and its
peak count is the detected-peak count of the two-pass prominence ladder,
or one when the ladder found nothing and the maximal bin is used. -/
theorem detector_always_returns_peak (w : ℕ → ℚ) (data : List ℚ)
    (mb : Option ℚ) (hd : data ≠ []) (hnn : ∀ x ∈ data, 0 ≤ x) :
    ∃ r, find_gaussian_peaks w data 50 mb = some r ∧ 1 ≤ r.n_peaks ∧
      r.peaks ≠ [] ∧
      r.n_peaks = max 1 (detectedPeaksProms w data 50).1.length := by
  rw [find_gaussian_peaks, if_neg hd]
  by_cases hpk : (detectedPeaksProms w data 50).1 = []
  · rw [if_pos hpk]
    refine ⟨_, rfl, ?_, ?_, ?_⟩ <;> dsimp only
    · exact le_refl 1
    · simp
    · rw [hpk]
      rfl
  · rw [if_neg hpk]
    have hlen : 1 ≤ (detectedPeaksProms w data 50).1.length := by
      cases h : (detectedPeaksProms w data 50).1 with
      | nil => exact absurd h hpk
      | cons a t => simp
    have hrl : (reportPositions w data 50).length =
        (detectedPeaksProms w data 50).1.length := by
      rw [reportPositions_length, detectedPeaksProms_length]
    refine ⟨_, rfl, ?_, ?_, ?_⟩
    · dsimp only
      exact hlen
    · dsimp only
      split
      · intro hnil
        have := congrArg List.length hnil
        rw [List.length_take, hrl] at this
        simp only [List.length_nil] at this
        omega
      · intro hnil
        rw [hnil] at hrl
        simp only [List.length_nil] at hrl
        omega
    · dsimp only
      exact (Nat.max_eq_right hlen).symm

set_option maxRecDepth 2000 in
/-- Concrete witness for C4 on a one-element array. -/
theorem detector_always_returns_peak_witness :
    ∃ r, find_gaussian_peaks wG [5] 50 none = some r ∧ 1 ≤ r.n_peaks ∧
      r.peaks ≠ [] ∧
      r.n_peaks = max 1 (detectedPeaksProms wG [5] 50).1.length :=
  detector_always_returns_peak wG [5] none (by decide) (by decide)

/- ---------------------------------------------------------------------
   Monotonicity of the ceiling-constrained selection
   --------------------------------------------------------------------- -/

/-- One step of the optional first-maximum fold used by mpGo. -/
def mpStepO (ob : Option (ℚ × ℚ)) (x : ℚ × ℚ) : Option (ℚ × ℚ) :=
  match ob with
  | none => some x
  | some b => some (mpStep b x)

theorem mpGo_eq_foldl (acc : Option (ℚ × ℚ)) (l : List (ℚ × ℚ)) :
    mpGo acc l = l.foldl mpStepO acc := by
  rw [mpGo]
  congr 1

/-- Invariant tying the first-maximum scan of a pair list to the scan of
its sublist of pairs with first component strictly below u. -/
def mpInv (u : ℚ) (oa ob : Option (ℚ × ℚ)) : Prop :=
  (oa = none ∧ ob = none) ∨
  (∃ a, oa = some a ∧ ob = none ∧ u ≤ a.1) ∨
  (∃ a b, oa = some a ∧ ob = some b ∧ b.1 < u ∧
    (b = a ∨ (b.2 ≤ a.2 ∧ u ≤ a.1)))

theorem mpInv_step_in {u : ℚ} {oa ob : Option (ℚ × ℚ)} {x : ℚ × ℚ}
    (h : mpInv u oa ob) (hx : x.1 < u) :
    mpInv u (mpStepO oa x) (mpStepO ob x) := by
  rcases h with ⟨ha, hb⟩ | ⟨a, ha, hb, hau⟩ | ⟨a, b, ha, hb, hbu, hrest⟩
  · subst ha; subst hb
    exact Or.inr (Or.inr ⟨x, x, rfl, rfl, hx, Or.inl rfl⟩)
  · subst ha; subst hb
    refine Or.inr (Or.inr ⟨mpStep a x, x, rfl, rfl, hx, ?_⟩)
    by_cases hax : a.2 < x.2
    · rw [mpStep, if_pos hax]
      exact Or.inl rfl
    · rw [mpStep, if_neg hax]
      exact Or.inr ⟨le_of_not_lt hax, hau⟩
  · subst ha; subst hb
    refine Or.inr (Or.inr ⟨mpStep a x, mpStep b x, rfl, rfl, ?_, ?_⟩)
    · by_cases hbx : b.2 < x.2
      · rw [mpStep, if_pos hbx]
        exact hx
      · rw [mpStep, if_neg hbx]
        exact hbu
    · rcases hrest with hba | ⟨hle, hau⟩
      · subst hba
        exact Or.inl rfl
      · by_cases hax : a.2 < x.2
        · have hbx : b.2 < x.2 := lt_of_le_of_lt hle hax
          rw [mpStep, mpStep, if_pos hbx, if_pos hax]
          exact Or.inl rfl
        · by_cases hbx : b.2 < x.2
          · rw [mpStep, mpStep, if_pos hbx, if_neg hax]
            exact Or.inr ⟨le_of_not_lt hax, hau⟩
          · rw [mpStep, mpStep, if_neg hbx, if_neg hax]
            exact Or.inr ⟨hle, hau⟩

theorem mpInv_step_out {u : ℚ} {oa ob : Option (ℚ × ℚ)} {x : ℚ × ℚ}
    (h : mpInv u oa ob) (hx : ¬x.1 < u) :
    mpInv u (mpStepO oa x) ob := by
  have hux : u ≤ x.1 := le_of_not_lt hx
  rcases h with ⟨ha, hb⟩ | ⟨a, ha, hb, hau⟩ | ⟨a, b, ha, hb, hbu, hrest⟩
  · subst ha; subst hb
    exact Or.inr (Or.inl ⟨x, rfl, rfl, hux⟩)
  · subst ha; subst hb
    refine Or.inr (Or.inl ⟨mpStep a x, rfl, rfl, ?_⟩)
    by_cases hax : a.2 < x.2
    · rw [mpStep, if_pos hax]
      exact hux
    · rw [mpStep, if_neg hax]
      exact hau
  · subst ha; subst hb
    refine Or.inr (Or.inr ⟨mpStep a x, b, rfl, rfl, hbu, ?_⟩)
    rcases hrest with hba | ⟨hle, hau⟩
    · subst hba
      by_cases hax : b.2 < x.2
      · rw [mpStep, if_pos hax]
        exact Or.inr ⟨le_of_lt hax, hux⟩
      · rw [mpStep, if_neg hax]
        exact Or.inl rfl
    · by_cases hax : a.2 < x.2
      · rw [mpStep, if_pos hax]
        exact Or.inr ⟨le_trans hle (le_of_lt hax), hux⟩
      · rw [mpStep, if_neg hax]
        exact Or.inr ⟨hle, hau⟩

theorem mpInv_fold (u : ℚ) :
    ∀ (L : List (ℚ × ℚ)) (oa ob : Option (ℚ × ℚ)), mpInv u oa ob →
      mpInv u (L.foldl mpStepO oa)
        ((L.filter fun pr => decide (pr.1 < u)).foldl mpStepO ob) := by
  intro L
  induction L with
  | nil => intro oa ob h; simpa using h
  | cons x t ih =>
    intro oa ob h
    by_cases hx : x.1 < u
    · rw [List.filter_cons, if_pos (by simpa using hx)]
      exact ih _ _ (mpInv_step_in h hx)
    · rw [List.filter_cons, if_neg (by simpa using hx)]
      exact ih _ _ (mpInv_step_out h hx)

theorem mpGo_none_eq_some {l : List (ℚ × ℚ)} (h : l ≠ []) :
    mpGo none l = some (mostProminent l) := by
  match l, h with
  | y :: t, _ =>
    obtain ⟨c, hc, _, _⟩ := mpGo_some t y
    have hgo : mpGo none (y :: t) = mpGo (some y) t := rfl
    rw [hgo, hc, mostProminent, hgo, hc]
    rfl

theorem selectBackground_some (positions proms centers : List ℚ)
    (hist : List ℕ) (m : ℚ) :
    selectBackground positions proms centers hist (some m) =
      if ((positions.zip proms).filter fun pr => decide (pr.1 < m)) = [] then
        if ((centers.zip hist).filter fun ch => decide (ch.1 < m)) = [] then
          minQ positions
        else (topRawBin ((centers.zip hist).filter
          fun ch => decide (ch.1 < m))).1
      else (mostProminent ((positions.zip proms).filter
        fun pr => decide (pr.1 < m))).1 := rfl

/-- C5.  The ceiling-constrained selection is monotone in the ceiling: for
two ceilings u < v over the same peak set (positions paired with
prominences), if some peak position is strictly below u then the
background selected under u is at most the background selected under v. -/
theorem ceiling_monotone_selection (positions proms centers : List ℚ)
    (hist : List ℕ) (u v : ℚ) (huv : u < v)
    (hlen : positions.length = proms.length)
    (hex : ∃ p ∈ positions, p < u) :
    selectBackground positions proms centers hist (some u) ≤
      selectBackground positions proms centers hist (some v) := by
  obtain ⟨p, hpmem, hpu⟩ := hex
  obtain ⟨q, hqz⟩ := exists_pair_mem_zip positions proms p hpmem hlen
  have hmemU : (p, q) ∈ (positions.zip proms).filter
      (fun pr => decide (pr.1 < u)) :=
    List.mem_filter.mpr ⟨hqz, by simpa using hpu⟩
  have hmemV : (p, q) ∈ (positions.zip proms).filter
      (fun pr => decide (pr.1 < v)) :=
    List.mem_filter.mpr ⟨hqz, by simpa using lt_trans hpu huv⟩
  have hneU := List.ne_nil_of_mem hmemU
  have hneV := List.ne_nil_of_mem hmemV
  rw [selectBackground_some, selectBackground_some, if_neg hneU, if_neg hneV]
  have hff : (positions.zip proms).filter (fun pr => decide (pr.1 < u)) =
      ((positions.zip proms).filter fun pr => decide (pr.1 < v)).filter
        (fun pr => decide (pr.1 < u)) := by
    rw [List.filter_filter]
    symm
    apply List.filter_congr
    intro x hx
    by_cases hxu : x.1 < u
    · simp [hxu, lt_trans hxu huv]
    · simp [hxu]
  have hinv := mpInv_fold u
    ((positions.zip proms).filter fun pr => decide (pr.1 < v)) none none
    (Or.inl ⟨rfl, rfl⟩)
  rw [← mpGo_eq_foldl, ← mpGo_eq_foldl, ← hff] at hinv
  rw [mpGo_none_eq_some hneV, mpGo_none_eq_some hneU] at hinv
  rcases hinv with ⟨h1, _⟩ | ⟨a, _, h2, _⟩ | ⟨a, b, ha, hb, hbu, hrest⟩
  · exact absurd h1 (by simp)
  · exact absurd h2 (by simp)
  · have hA := Option.some.inj ha
    have hB := Option.some.inj hb
    rcases hrest with hba | ⟨_, hau⟩
    · exact le_of_eq (by rw [hB, hba, hA])
    · rw [hA, hB]
      exact le_of_lt (lt_of_lt_of_le hbu hau)

/-- Concrete witness for C5: positions 3 and 8 with prominences 5 and 9;
under ceiling 5 the background is 3, under ceiling 10 it is 8. -/
theorem ceiling_monotone_selection_witness :
    selectBackground [3, 8] [5, 9] [] [] (some 5) ≤
      selectBackground [3, 8] [5, 9] [] [] (some 10) :=
  ceiling_monotone_selection [3, 8] [5, 9] [] [] 5 10 (by norm_num) rfl
    ⟨3, by simp, by norm_num⟩

/- ---------------------------------------------------------------------
   The bin fallback of the ceiling branch (raw counts, not smoothed)
   --------------------------------------------------------------------- -/

theorem histRawOf_length (data : List ℚ) (nb : ℕ) :
    (histRawOf data nb).length = nb := by
  simp [histRawOf, npHistogram]

theorem binCentersOf_length (data : List ℚ) (nb : ℕ) :
    (binCentersOf data nb).length = nb := by
  simp [binCentersOf, npHistogram]

/-- C3 (amended).  With a ceiling and no detected peak strictly below it,
find_gaussian_peaks falls back to the bin with the highest RAW count among
bins whose center is strictly below the ceiling (the source indexes hist,
the unsmoothed counts, at line 211); if no bin center is below the ceiling
either, it returns the lowest detected peak position, ignoring the
ceiling. -/
theorem background_ceiling_no_peak_below (w : ℕ → ℚ) (data : List ℚ)
    (m : ℚ) (hd : data ≠ []) (hpk : (detectedPeaksProms w data 50).1 ≠ [])
    (hnone : ∀ p ∈ peakPositions w data 50, ¬p < m) :
    ∃ r, find_gaussian_peaks w data 50 (some m) = some r ∧
      ((∃ c ∈ binCentersOf data 50, c < m) →
        ∃ ch ∈ ((binCentersOf data 50).zip (histRawOf data 50)).filter
            (fun x => decide (x.1 < m)),
          r.background_value = ch.1 ∧
          ∀ q ∈ ((binCentersOf data 50).zip (histRawOf data 50)).filter
              (fun x => decide (x.1 < m)), q.2 ≤ ch.2) ∧
      ((∀ c ∈ binCentersOf data 50, ¬c < m) →
        r.background_value ∈ peakPositions w data 50 ∧
        ∀ p ∈ peakPositions w data 50, r.background_value ≤ p) := by
  have hbelow : ((peakPairs w data 50).filter
      fun pr => decide (pr.1 < m)) = [] := by
    rw [List.filter_eq_nil_iff]
    intro x hx
    have hx1 := (List.of_mem_zip hx).1
    simpa using hnone x.1 hx1
  have hbg0 : bgOf w data 50 (some m) =
      if (((binCentersOf data 50).zip (histRawOf data 50)).filter
          fun ch => decide (ch.1 < m)) = [] then
        minQ (peakPositions w data 50)
      else (topRawBin (((binCentersOf data 50).zip (histRawOf data 50)).filter
        fun ch => decide (ch.1 < m))).1 := by
    rw [bgOf, selectBackground_some]
    rw [show ((peakPositions w data 50).zip (detectedPeaksProms w data 50).2)
      = peakPairs w data 50 from rfl]
    rw [if_pos hbelow]
  rw [find_gaussian_peaks, if_neg hd, if_neg hpk]
  refine ⟨_, rfl, ?_, ?_⟩
  · intro hcex
    obtain ⟨c, hc, hcm⟩ := hcex
    obtain ⟨n, hnz⟩ := exists_pair_mem_zip (binCentersOf data 50)
      (histRawOf data 50) c hc
      (by rw [binCentersOf_length, histRawOf_length])
    have hfm : (c, n) ∈ ((binCentersOf data 50).zip (histRawOf data 50)).filter
        (fun x => decide (x.1 < m)) :=
      List.mem_filter.mpr ⟨hnz, by simpa using hcm⟩
    have hneb := List.ne_nil_of_mem hfm
    rw [if_neg hneb] at hbg0
    obtain ⟨hmemb, hmaxb⟩ := topRawBin_spec hneb
    refine ⟨_, hmemb, ?_, hmaxb⟩
    dsimp only
    exact hbg0
  · intro hall
    have hnil : (((binCentersOf data 50).zip (histRawOf data 50)).filter
        fun ch => decide (ch.1 < m)) = [] := by
      rw [List.filter_eq_nil_iff]
      intro x hx
      have hx1 := (List.of_mem_zip hx).1
      simpa using hall x.1 hx1
    rw [if_pos hnil] at hbg0
    constructor
    · dsimp only
      rw [hbg0]
      exact minQ_mem (peakPositions_ne_nil hpk)
    · intro p hp
      dsimp only
      rw [hbg0]
      exact minQ_le hp

set_option maxRecDepth 8000 in
set_option maxHeartbeats 4000000 in
unseal Rat.add Rat.mul Rat.sub Rat.inv Rat.ofScientific in
/-- Concrete witness for the amended C3: on dataTwoPeaks with ceiling 5
neither detected peak (positions 11 and 51) is below the ceiling, and the
fallback selects among the bins with center below 5. -/
theorem background_ceiling_no_peak_below_witness :
    ∃ r, find_gaussian_peaks wG dataTwoPeaks 50 (some 5) = some r ∧
      ((∃ c ∈ binCentersOf dataTwoPeaks 50, c < 5) →
        ∃ ch ∈ ((binCentersOf dataTwoPeaks 50).zip
            (histRawOf dataTwoPeaks 50)).filter (fun x => decide (x.1 < 5)),
          r.background_value = ch.1 ∧
          ∀ q ∈ ((binCentersOf dataTwoPeaks 50).zip
              (histRawOf dataTwoPeaks 50)).filter (fun x => decide (x.1 < 5)),
            q.2 ≤ ch.2) ∧
      ((∀ c ∈ binCentersOf dataTwoPeaks 50, ¬c < 5) →
        r.background_value ∈ peakPositions wG dataTwoPeaks 50 ∧
        ∀ p ∈ peakPositions wG dataTwoPeaks 50, r.background_value ≤ p) :=
  background_ceiling_no_peak_below wG dataTwoPeaks 5 (by decide) (by decide)
    (by decide)

/-- Modelled from the spec, for comparison with the code only: the value
described by the specification's ceiling fallback, namely the center of
the bin with the highest SMOOTHED count among bins whose center is
strictly below the ceiling (first such bin on ties). -/
def specSmoothedTopBelow (w : ℕ → ℚ) (data : List ℚ) (nb : ℕ) (m : ℚ) : ℚ :=
  (mostProminent (((binCentersOf data nb).zip (histSmoothOf w data nb)).filter
    fun ch => decide (ch.1 < m))).1

/-- Input on which the raw-count fallback and the spec's smoothed-count
fallback disagree: a raw spike of three zero samples (raw argmax below the
ceiling), a broad low plateau just under the ceiling that dominates after
smoothing, a tall cluster near 41 providing the only detected peak, and
one sample at 100 fixing the histogram range. -/
def dataRawBins : List ℚ :=
  List.replicate 3 0 ++
  (List.replicate 2 21 ++ List.replicate 2 23 ++ List.replicate 2 25 ++
   List.replicate 2 27 ++ List.replicate 2 29) ++
  (List.replicate 20 37 ++ List.replicate 20 39 ++ List.replicate 20 41 ++
   List.replicate 20 43 ++ List.replicate 20 45) ++ [100]

set_option maxRecDepth 8000 in
set_option maxHeartbeats 8000000 in
unseal Rat.add Rat.mul Rat.sub Rat.inv Rat.ofScientific in
/-- Counterexample to C3 as stated.  On dataRawBins with ceiling 30 every
precondition of the claim holds (peaks are detected, none lies below the
ceiling, bins below the ceiling exist), the code returns the raw-count
argmax center 1, while the bin with the highest smoothed count below the
ceiling has center 29: the code does not return the smoothed-count
argmax. -/
theorem ceiling_fallback_smoothed_counterexample :
    KGauss wG ∧
    dataRawBins ≠ [] ∧
    (detectedPeaksProms wG dataRawBins 50).1 ≠ [] ∧
    (∀ p ∈ peakPositions wG dataRawBins 50, ¬p < 30) ∧
    (∃ c ∈ binCentersOf dataRawBins 50, c < 30) ∧
    (find_gaussian_peaks wG dataRawBins 50 (some 30)).map
      PeakResult.background_value = some 1 ∧
    specSmoothedTopBelow wG dataRawBins 50 30 = 29 ∧
    (1 : ℚ) ≠ 29 := by
  refine ⟨⟨by decide, by decide⟩, ?_, ?_, ?_, ?_, ?_, ?_, ?_⟩ <;> decide

/-- The constant array used by the C6 counterexample. -/
def dataConst : List ℚ := List.replicate 5 100

set_option maxRecDepth 8000 in
set_option maxHeartbeats 4000000 in
unseal Rat.add Rat.mul Rat.sub Rat.inv Rat.ofScientific in
/-- Counterexample to C6 as stated.  On the value 100 repeated 5 times the
detector does return exactly one peak, but the peak is located at 99 (the
center of the last histogram bin), not at the array value 100. -/
theorem constant_array_peak_counterexample :
    KGauss wG ∧
    (find_gaussian_peaks wG dataConst 50 none).map PeakResult.n_peaks =
      some 1 ∧
    (find_gaussian_peaks wG dataConst 50 none).map PeakResult.peaks =
      some [99] ∧
    (99 : ℚ) ≠ 100 := by
  refine ⟨⟨by decide, by decide⟩, ?_, ?_, ?_⟩ <;> decide

/- ---------------------------------------------------------------------
   Generic lemmas about the embedded scipy primitives
   --------------------------------------------------------------------- -/

theorem getD_map_range (f : ℕ → ℚ) (n i : ℕ) (hi : i < n) :
    ((List.range n).map f).getD i 0 = f i := by
  rw [List.getD_eq_getElem?_getD, List.getElem?_map, List.getElem?_range hi]
  rfl

theorem getD_map_range_ge (f : ℕ → ℚ) (n i : ℕ) (hi : n ≤ i) :
    ((List.range n).map f).getD i 0 = 0 := by
  rw [List.getD_eq_getElem?_getD, List.getElem?_map]
  rw [List.getElem?_eq_none (by simpa using hi)]
  rfl

theorem sum_map_range (g : ℕ → ℚ) : ∀ n : ℕ,
    ((List.range n).map g).sum = ∑ j ∈ Finset.range n, g j := by
  intro n
  induction n with
  | zero => rfl
  | succ n ih =>
    rw [List.range_succ, List.map_append, List.sum_append,
      Finset.sum_range_succ, ih]
    simp

theorem gaussianFilter1dW_length (w : ℕ → ℚ) (radius : ℕ) (xs : List ℚ) :
    (gaussianFilter1dW w radius xs).length = xs.length := by
  rw [gaussianFilter1dW]
  rw [List.length_map, List.length_range]

theorem eqRun_le_length (v : ℚ) : ∀ l : List ℚ, eqRun v l ≤ l.length := by
  intro l
  induction l with
  | nil => exact le_refl 0
  | cons a t ih =>
    rw [eqRun]
    split
    · simpa using ih
    · simp

theorem plateauEnd_le {xs : List ℚ} {l : ℕ} (hl : l + 1 < xs.length) :
    plateauEnd xs l + 1 < xs.length := by
  rw [plateauEnd]
  have h1 := eqRun_le_length (xget xs l) ((xs.drop (l + 1)).take (xs.length - l - 2))
  have h2 : ((xs.drop (l + 1)).take (xs.length - l - 2)).length ≤
      xs.length - l - 2 := by
    simp [List.length_take]
  omega

theorem xget_mono_of_step {xs : List ℚ}
    (h : ∀ i, i + 1 < xs.length → xget xs i ≤ xget xs (i + 1)) :
    ∀ i j, i ≤ j → j < xs.length → xget xs i ≤ xget xs j := by
  intro i j hij
  induction j, hij using Nat.le_induction with
  | base => intro _; exact le_refl _
  | succ n hn ih =>
    intro hlt
    have hn2 : n < xs.length := Nat.lt_of_succ_lt hlt
    exact le_trans (ih hn2) (h n hlt)

/-- A nondecreasing signal has no local maxima in the sense of scipy's
find_peaks scan. -/
theorem localMaxima_of_monotone {xs : List ℚ}
    (h : ∀ i, i + 1 < xs.length → xget xs i ≤ xget xs (i + 1)) :
    localMaxima xs = [] := by
  rw [localMaxima]
  have hf : (List.range xs.length).filter (isPeakStart xs) = [] := by
    rw [List.filter_eq_nil_iff]
    intro l _
    rw [isPeakStart]
    simp only [Bool.and_eq_true, decide_eq_true_eq]
    intro hcon
    obtain ⟨⟨⟨_, h2⟩, _⟩, h4⟩ := hcon
    have hple := plateauEnd_le h2
    have hll : l ≤ plateauEnd xs l + 1 := by
      rw [plateauEnd]
      omega
    exact absurd h4
      (not_lt_of_le (xget_mono_of_step h l (plateauEnd xs l + 1) hll hple))
  rw [hf]
  rfl

theorem findPeaksProm_of_no_maxima {xs : List ℚ} (h : localMaxima xs = [])
    (t : ℚ) : findPeaksProm xs t = ([], []) := by
  rw [findPeaksProm, h]
  rfl

theorem argmaxGo_all_le : ∀ (t : List ℚ) (bi i : ℕ) (bv : ℚ),
    (∀ j, j < t.length → t.getD j 0 ≤ bv) → argmaxGo t bi bv i = bi := by
  intro t
  induction t with
  | nil => intro bi i bv _; rfl
  | cons a u ih =>
    intro bi i bv hall
    have ha : a ≤ bv := by
      have := hall 0 (by simp)
      simpa using this
    rw [argmaxGo, if_neg (not_lt_of_le ha)]
    exact ih bi (i + 1) bv fun j hj => by
      have := hall (j + 1) (by simpa using hj)
      simpa using this

theorem argmaxGo_strict : ∀ (t : List ℚ) (k bi i : ℕ) (bv : ℚ),
    k < t.length →
    (∀ j, j < t.length → j ≠ k → t.getD j 0 < t.getD k 0) →
    bv < t.getD k 0 → argmaxGo t bi bv i = i + k := by
  intro t
  induction t with
  | nil => intro k bi i bv hk; exact absurd hk (by simp)
  | cons a u ih =>
    intro k bi i bv hk hdom hbv
    match k with
    | 0 =>
      have hbva : bv < a := by simpa using hbv
      rw [argmaxGo, if_pos hbva]
      rw [argmaxGo_all_le u i (i + 1) a fun j hj => by
        have := hdom (j + 1) (by simpa using hj) (by omega)
        simp only [List.getD_cons_succ, List.getD_cons_zero] at this
        exact le_of_lt this]
      omega
    | k' + 1 =>
      have hk' : k' < u.length := by simpa using hk
      have hdom' : ∀ j, j < u.length → j ≠ k' → u.getD j 0 < u.getD k' 0 := by
        intro j hj hjk
        have := hdom (j + 1) (by simpa using hj) (by omega)
        simpa using this
      have hak : a < u.getD k' 0 := by
        have := hdom 0 (by simp) (by omega)
        simpa using this
      have hbk : bv < u.getD k' 0 := by simpa using hbv
      rw [argmaxGo]
      split
      · rw [ih k' i (i + 1) a hk' hdom' hak]
        omega
      · rw [ih k' bi (i + 1) bv hk' hdom' hbk]
        omega

theorem argmaxQ_strict {xs : List ℚ} {k : ℕ} (hk : k < xs.length)
    (hdom : ∀ j, j < xs.length → j ≠ k → xs.getD j 0 < xs.getD k 0) :
    argmaxQ xs = k := by
  match xs, hk with
  | a :: u, hk =>
    match k with
    | 0 =>
      rw [argmaxQ]
      exact argmaxGo_all_le u 0 1 a fun j hj => by
        have := hdom (j + 1) (by simpa using hj) (by omega)
        simp only [List.getD_cons_succ, List.getD_cons_zero] at this
        exact le_of_lt this
    | k' + 1 =>
      have hk' : k' < u.length := by simpa using hk
      have hdom' : ∀ j, j < u.length → j ≠ k' → u.getD j 0 < u.getD k' 0 := by
        intro j hj hjk
        have := hdom (j + 1) (by simpa using hj) (by omega)
        simpa using this
      have hak : a < u.getD k' 0 := by
        have := hdom 0 (by simp) (by omega)
        simpa using this
      rw [argmaxQ]
      rw [argmaxGo_strict u k' 0 1 a hk' hdom' hak]
      omega

/- ---------------------------------------------------------------------
   The detector on a constant array
   --------------------------------------------------------------------- -/

theorem foldl_max_replicate (a : ℚ) : ∀ n : ℕ,
    (List.replicate n a).foldl max a = a := by
  intro n
  induction n with
  | zero => rfl
  | succ n ih =>
    rw [List.replicate_succ, List.foldl_cons, max_self]
    exact ih

theorem maxQ_replicate (v : ℚ) {N : ℕ} (hN : 1 ≤ N) :
    maxQ (List.replicate N v) = v := by
  match N, hN with
  | n + 1, _ =>
    rw [List.replicate_succ, maxQ]
    exact foldl_max_replicate v n

theorem constHistCounts (v : ℚ) (N : ℕ) (hv : 0 < v) (hN : 1 ≤ N) :
    histRawOf (List.replicate N v) 50 =
      (List.range 50).map fun k => if k = 49 then N else 0 := by
  have hmax : maxQ (List.replicate N v) = v := maxQ_replicate v hN
  rw [histRawOf, npHistogram]
  simp only [hmax, if_neg (ne_of_gt hv)]
  apply List.map_congr_left
  intro k hk
  have hk50 : k < 50 := List.mem_range.mp hk
  rw [List.countP_replicate]
  have hkc : ((k : ℚ)) ≤ 49 := by exact_mod_cast Nat.le_of_lt_succ hk50
  have hA : npEdges 0 v 50 k ≤ v := by
    rw [npEdges]
    push_cast
    rw [zero_add, sub_zero, div_le_iff₀ (by norm_num : (0 : ℚ) < 50)]
    nlinarith
  by_cases h49 : k = 49
  · subst h49
    have hC : v ≤ npEdges 0 v 50 50 := by
      rw [npEdges]
      push_cast
      rw [zero_add, sub_zero, le_div_iff₀ (by norm_num : (0 : ℚ) < 50)]
      nlinarith
    rw [if_pos, if_pos rfl]
    simp only [Bool.and_eq_true, Bool.or_eq_true, decide_eq_true_eq]
    exact ⟨hA, Or.inr ⟨by norm_num, hC⟩⟩
  · have hkc2 : ((k : ℚ)) ≤ 48 := by exact_mod_cast (by omega : k ≤ 48)
    have hB : ¬v < npEdges 0 v 50 (k + 1) := by
      rw [npEdges, not_lt]
      push_cast
      rw [zero_add, sub_zero, div_le_iff₀ (by norm_num : (0 : ℚ) < 50)]
      nlinarith
    rw [if_neg, if_neg h49]
    simp only [Bool.and_eq_true, Bool.or_eq_true, decide_eq_true_eq]
    rintro ⟨-, h | ⟨hk1, -⟩⟩
    · exact hB h
    · exact h49 (by omega)

theorem constHistCenters (v : ℚ) (N : ℕ) (hv : 0 < v) (hN : 1 ≤ N) :
    binCentersOf (List.replicate N v) 50 =
      (List.range 50).map fun k =>
        (npEdges 0 v 50 k + npEdges 0 v 50 (k + 1)) / 2 := by
  have hmax : maxQ (List.replicate N v) = v := maxQ_replicate v hN
  rw [binCentersOf, npHistogram]
  simp only [hmax, if_neg (ne_of_gt hv)]

theorem constHistQ (v : ℚ) (N : ℕ) (hv : 0 < v) (hN : 1 ≤ N) :
    (histRawOf (List.replicate N v) 50).map (fun (n : ℕ) => (n : ℚ)) =
      (List.range 50).map fun k => if k = 49 then (N : ℚ) else 0 := by
  rw [constHistCounts v N hv hN, List.map_map]
  apply List.map_congr_left
  intro k _
  simp only [Function.comp]
  by_cases h : k = 49
  · rw [if_pos h, if_pos h]
  · rw [if_neg h, if_neg h]
    rfl

theorem constReflectExt (N : ℕ) (e : ℤ) (he1 : -8 ≤ e) (he2 : e ≤ 57) :
    reflectExt ((List.range 50).map fun k => if k = 49 then (N : ℚ) else 0) e =
      if e = 49 ∨ e = 50 then (N : ℚ) else 0 := by
  have hlen : ((List.range 50).map fun k =>
      if k = 49 then (N : ℚ) else 0).length = 50 := by
    rw [List.length_map, List.length_range]
  rw [reflectExt, hlen]
  by_cases h1 : e < 0
  · rw [if_pos h1]
    rw [getD_map_range _ _ _ (by omega : (-1 - e).toNat < 50)]
    rw [if_neg (by omega : ¬(-1 - e).toNat = 49)]
    rw [if_neg (by omega : ¬(e = 49 ∨ e = 50))]
  · rw [if_neg h1]
    by_cases h2 : e < (50 : ℕ)
    · rw [if_pos h2]
      rw [getD_map_range _ _ _ (by omega : e.toNat < 50)]
      by_cases h3 : e = 49
      · rw [if_pos (by omega : e.toNat = 49), if_pos (Or.inl h3)]
      · rw [if_neg (by omega : ¬e.toNat = 49)]
        rw [if_neg (by omega : ¬(e = 49 ∨ e = 50))]
    · rw [if_neg h2]
      by_cases h4 : e = 50
      · rw [getD_map_range _ _ _
          (by omega : (2 * ((50 : ℕ) : ℤ) - 1 - e).toNat < 50)]
        rw [if_pos (by omega : (2 * ((50 : ℕ) : ℤ) - 1 - e).toNat = 49)]
        rw [if_pos (Or.inr h4)]
      · rw [getD_map_range _ _ _
          (by omega : (2 * ((50 : ℕ) : ℤ) - 1 - e).toNat < 50)]
        rw [if_neg (by omega : ¬(2 * ((50 : ℕ) : ℤ) - 1 - e).toNat = 49)]
        rw [if_neg (by omega : ¬(e = 49 ∨ e = 50))]

theorem constSmooth (w : ℕ → ℚ) (v : ℚ) (N : ℕ) (hv : 0 < v) (hN : 1 ≤ N)
    (i : ℕ) (hi : i < 50) :
    (histSmoothOf w (List.replicate N v) 50).getD i 0 =
      (N : ℚ) * ((if 41 ≤ i then w (49 - i) else 0) +
        (if 42 ≤ i then w (50 - i) else 0)) := by
  rw [histSmoothOf, constHistQ v N hv hN]
  rw [gaussianFilter1dW]
  rw [show ((List.range 50).map fun k =>
      if k = 49 then (N : ℚ) else 0).length = 50 by
    rw [List.length_map, List.length_range]]
  rw [getD_map_range _ 50 i hi]
  rw [sum_map_range]
  have hstep : ∀ j ∈ Finset.range (2 * 8 + 1),
      w ((j : ℤ) - ((8 : ℕ) : ℤ)).natAbs *
        reflectExt ((List.range 50).map fun k => if k = 49 then (N : ℚ) else 0)
          ((i : ℤ) + (j : ℤ) - ((8 : ℕ) : ℤ)) =
      (if j = 57 - i then w ((j : ℤ) - ((8 : ℕ) : ℤ)).natAbs * N else 0) +
        (if j = 58 - i then w ((j : ℤ) - ((8 : ℕ) : ℤ)).natAbs * N else 0) := by
    intro j hj
    have hj17 : j < 17 := by simpa using hj
    rw [constReflectExt N ((i : ℤ) + (j : ℤ) - ((8 : ℕ) : ℤ)) (by omega)
      (by omega)]
    by_cases hj1 : (i : ℤ) + (j : ℤ) - ((8 : ℕ) : ℤ) = 49
    · rw [if_pos (Or.inl hj1), if_pos (by omega : j = 57 - i),
        if_neg (by omega : ¬j = 58 - i)]
      ring
    · by_cases hj2 : (i : ℤ) + (j : ℤ) - ((8 : ℕ) : ℤ) = 50
      · rw [if_pos (Or.inr hj2), if_neg (by omega : ¬j = 57 - i),
          if_pos (by omega : j = 58 - i)]
        ring
      · rw [if_neg (fun hor => hor.elim hj1 hj2),
          if_neg (by omega : ¬j = 57 - i), if_neg (by omega : ¬j = 58 - i)]
        ring
  rw [Finset.sum_congr rfl hstep]
  rw [Finset.sum_add_distrib]
  rw [Finset.sum_ite_eq' (Finset.range (2 * 8 + 1)) (57 - i)
    (fun j => w ((j : ℤ) - ((8 : ℕ) : ℤ)).natAbs * N)]
  rw [Finset.sum_ite_eq' (Finset.range (2 * 8 + 1)) (58 - i)
    (fun j => w ((j : ℤ) - ((8 : ℕ) : ℤ)).natAbs * N)]
  by_cases h41 : 41 ≤ i
  · rw [if_pos (by simp only [Finset.mem_range]; omega)]
    rw [show ((((57 - i : ℕ) : ℤ) - ((8 : ℕ) : ℤ)).natAbs) = 49 - i by omega]
    by_cases h42 : 42 ≤ i
    · rw [if_pos (by simp only [Finset.mem_range]; omega)]
      rw [show ((((58 - i : ℕ) : ℤ) - ((8 : ℕ) : ℤ)).natAbs) = 50 - i by omega]
      rw [if_pos h41, if_pos h42]
      ring
    · rw [if_neg (by simp only [Finset.mem_range]; omega)]
      rw [if_pos h41, if_neg h42]
      ring
  · have h42 : ¬42 ≤ i := by omega
    rw [if_neg (by simp only [Finset.mem_range]; omega),
      if_neg (by simp only [Finset.mem_range]; omega)]
    rw [if_neg h41, if_neg h42]
    ring

/-- C6 (amended).  For every kernel with the Gaussian shape, every value
v > 0 and every repeat count N > 1, the detector on the array of v
repeated N times returns exactly one peak, and that peak (and the
background value) is located at the center of the highest histogram bin,
namely 99/100 of v, not at v itself: all samples fall into the last bin
of the range from 0 to v, the smoothed histogram is nondecreasing, so no
local maxima exist and the maximal-bin fallback fires. -/
theorem constant_array_single_peak (w : ℕ → ℚ) (v : ℚ) (N : ℕ)
    (hw : KGauss w) (hv : 0 < v) (hN : 2 ≤ N) :
    ∃ r, find_gaussian_peaks w (List.replicate N v) 50 none = some r ∧
      r.n_peaks = 1 ∧ r.peaks = [99 / 100 * v] ∧
      r.background_value = 99 / 100 * v := by
  obtain ⟨hdec, hp8⟩ := hw
  have h87 : w 8 < w 7 := hdec 7 (by norm_num)
  have h76 : w 7 < w 6 := hdec 6 (by norm_num)
  have h65 : w 6 < w 5 := hdec 5 (by norm_num)
  have h54 : w 5 < w 4 := hdec 4 (by norm_num)
  have h43 : w 4 < w 3 := hdec 3 (by norm_num)
  have h32 : w 3 < w 2 := hdec 2 (by norm_num)
  have h21 : w 2 < w 1 := hdec 1 (by norm_num)
  have h10 : w 1 < w 0 := hdec 0 (by norm_num)
  have hN1 : 1 ≤ N := by omega
  have hNpos : (0 : ℚ) < N := by
    have : (0 : ℕ) < N := by omega
    exact_mod_cast this
  have hd : List.replicate N v ≠ [] := by
    intro h
    have := congrArg List.length h
    simp only [List.length_replicate, List.length_nil] at this
    omega
  have hSlen : (histSmoothOf w (List.replicate N v) 50).length = 50 := by
    rw [histSmoothOf, gaussianFilter1dW_length, List.length_map,
      histRawOf_length]
  have hsm := constSmooth w v N hv hN1
  have hmono : ∀ i, i + 1 < (histSmoothOf w (List.replicate N v) 50).length →
      xget (histSmoothOf w (List.replicate N v) 50) i ≤
        xget (histSmoothOf w (List.replicate N v) 50) (i + 1) := by
    intro i hilen
    rw [hSlen] at hilen
    rw [xget, xget, hsm i (by omega), hsm (i + 1) (by omega)]
    apply mul_le_mul_of_nonneg_left ?_ (le_of_lt hNpos)
    have hi48 : i ≤ 48 := by omega
    interval_cases i <;> norm_num <;> linarith
  have hlm := localMaxima_of_monotone hmono
  have hdet : detectedPeaksProms w (List.replicate N v) 50 = ([], []) := by
    rw [detectedPeaksProms]
    rw [findPeaksProm_of_no_maxima hlm, findPeaksProm_of_no_maxima hlm]
    simp
  have hargmax : argmaxQ (histSmoothOf w (List.replicate N v) 50) = 49 := by
    apply argmaxQ_strict (by rw [hSlen]; norm_num)
    intro j hj hjne
    rw [hSlen] at hj
    rw [hsm j hj, hsm 49 (by norm_num)]
    apply mul_lt_mul_of_pos_left ?_ hNpos
    have hj48 : j ≤ 48 := by omega
    interval_cases j <;> norm_num <;> linarith
  have hcenter : (binCentersOf (List.replicate N v) 50).getD 49 0 =
      99 / 100 * v := by
    rw [constHistCenters v N hv hN1]
    rw [getD_map_range _ 50 49 (by norm_num)]
    rw [npEdges, npEdges]
    push_cast
    ring
  have hfb : fallbackBG w (List.replicate N v) 50 = 99 / 100 * v := by
    rw [fallbackBG, hargmax, hcenter]
  rw [find_gaussian_peaks, if_neg hd,
    if_pos (by rw [hdet] : (detectedPeaksProms w (List.replicate N v) 50).1 = [])]
  refine ⟨_, rfl, ?_, ?_, ?_⟩
  · dsimp only
  · dsimp only
    rw [hfb]
  · dsimp only
    exact hfb

/-- Concrete witness for the amended C6: the value 100 repeated 5 times
yields one peak at 99. -/
theorem constant_array_single_peak_witness :
    ∃ r, find_gaussian_peaks wG (List.replicate 5 100) 50 none = some r ∧
      r.n_peaks = 1 ∧ r.peaks = [99 / 100 * 100] ∧
      r.background_value = 99 / 100 * 100 :=
  constant_array_single_peak wG 100 5 ⟨by decide, by decide⟩ (by norm_num)
    (by norm_num)

/- ---------------------------------------------------------------------
   Perimeter Builder (extract_microscopy_data.py, lines 80-85)
   --------------------------------------------------------------------- -/

/-- Pixel positions of a raster of the given shape, in row-major order
(the order in which numpy boolean indexing extracts values). -/
def positionsOf (H W : ℕ) : List (ℕ × ℕ) :=
  (List.range H).bind fun r => (List.range W).map fun c => (r, c)

/-- Mirrors the binarization (mask greater than 0).astype(uint8). -/
def binarize (img : ℕ × ℕ → ℕ) : ℕ × ℕ → ℕ :=
  fun p => if 0 < img p then 1 else 0

/-- Mirrors perimeter_mask = np.abs(mask_binary - dilated_binary) computed
in int16 and stored as uint8 (line 85 of extract_microscopy_data.py). -/
def perimeter_mask (mask dilated : ℕ × ℕ → ℕ) : ℕ × ℕ → ℕ :=
  fun p => ((binarize mask p : ℤ) - (binarize dilated p : ℤ)).natAbs

/-- C8.  The perimeter raster is the pixel-wise symmetric difference of
the binarized particle and dilated rasters; consequently every perimeter
pixel lies in the union of the two rasters, and when the dilated raster
is a strict superset of the particle raster the perimeter raster equals
dilated minus particle exactly. -/
theorem perimeter_symmetric_difference (mask dilated : ℕ × ℕ → ℕ)
    (H W : ℕ) :
    (∀ p ∈ positionsOf H W, perimeter_mask mask dilated p =
      if Xor' (0 < mask p) (0 < dilated p) then 1 else 0) ∧
    (∀ p ∈ positionsOf H W, 0 < perimeter_mask mask dilated p →
      0 < mask p ∨ 0 < dilated p) ∧
    ((∀ p ∈ positionsOf H W, 0 < mask p → 0 < dilated p) →
      (∃ p ∈ positionsOf H W, 0 < dilated p ∧ mask p = 0) →
      ∀ p ∈ positionsOf H W,
        (0 < perimeter_mask mask dilated p ↔ 0 < dilated p ∧ mask p = 0)) := by
  have hpt : ∀ p, perimeter_mask mask dilated p =
      if Xor' (0 < mask p) (0 < dilated p) then 1 else 0 := by
    intro p
    rw [perimeter_mask, binarize, binarize]
    by_cases hm : 0 < mask p <;> by_cases hd : 0 < dilated p <;>
      simp [hm, hd, Xor']
  refine ⟨fun p _ => hpt p, ?_, ?_⟩
  · intro p _ hpos
    rw [hpt p] at hpos
    by_cases hm : 0 < mask p
    · exact Or.inl hm
    · by_cases hd : 0 < dilated p
      · exact Or.inr hd
      · rw [if_neg (by simp [Xor', hm, hd])] at hpos
        exact absurd hpos (lt_irrefl 0)
  · intro hsub _ p hp
    rw [hpt p]
    constructor
    · intro hpos
      by_cases hm : 0 < mask p
      · have hd := hsub p hp hm
        rw [if_neg (by simp [Xor', hm, hd])] at hpos
        exact absurd hpos (lt_irrefl 0)
      · by_cases hd : 0 < dilated p
        · exact ⟨hd, by omega⟩
        · rw [if_neg (by simp [Xor', hm, hd])] at hpos
          exact absurd hpos (lt_irrefl 0)
    · intro ⟨hd, hm⟩
      rw [if_pos (by simp [Xor', hd]; omega)]
      norm_num

/-- Concrete particle raster for the C8 witness: one pixel set. -/
def maskEx : ℕ × ℕ → ℕ := fun p => if p = (0, 0) then 1 else 0

/-- Concrete dilated raster for the C8 witness: the whole first row. -/
def dilatedEx : ℕ × ℕ → ℕ := fun p => if p.1 = 0 then 1 else 0

/-- Concrete witness for C8 on a 2 by 2 raster where the dilated raster
strictly contains the particle raster: the perimeter is exactly dilated
minus particle. -/
theorem perimeter_symmetric_difference_witness :
    ∀ p ∈ positionsOf 2 2,
      (0 < perimeter_mask maskEx dilatedEx p ↔
        0 < dilatedEx p ∧ maskEx p = 0) :=
  (perimeter_symmetric_difference maskEx dilatedEx 2 2).2.2 (by decide)
    ⟨(0, 1), by decide, by decide⟩

/- ---------------------------------------------------------------------
   CSV writer (save_summary_statistics, lines 407-417)
   --------------------------------------------------------------------- -/

/-- A Python value as it appears in a particle result dictionary. -/
inductive PyVal where
  | num (q : ℚ)
  | str (s : String)
  | peakInfo (r : Option PeakResult)
  deriving DecidableEq

/-- Whether the first character list is a leading segment of the second. -/
def subAt : List Char → List Char → Bool
  | [], _ => true
  | _ :: _, [] => false
  | a :: t, b :: u => a = b && subAt t u

/-- Whether the first character list occurs somewhere inside the second,
mirroring Python's substring containment test. -/
def hasSub (needle : List Char) : List Char → Bool
  | [] => needle.isEmpty
  | b :: u => subAt needle (b :: u) || hasSub needle u

/-- Mirrors the row construction of save_summary_statistics: keys whose
name contains peak_info are dropped, numeric negative values are replaced
by the empty string, and every other value is written unchanged. -/
def csvRow (particle : List (String × PyVal)) : List (String × PyVal) :=
  (particle.filter fun kv => !hasSub "peak_info".toList kv.1.toList).map
    fun kv =>
      match kv.2 with
      | PyVal.num q => if q < 0 then (kv.1, PyVal.str "") else kv
      | _ => kv

/-- C10.  In the written row, every numeric field with a negative value
becomes the empty string and every numeric field with a nonnegative value
is written unchanged, uniformly over all numeric columns of the record
(the peak_info column is not part of the row). -/
theorem negative_numeric_cells_empty (particle : List (String × PyVal))
    (k : String) (hk : hasSub "peak_info".toList k.toList = false) :
    (∀ q : ℚ, (k, PyVal.num q) ∈ particle → q < 0 →
      (k, PyVal.str "") ∈ csvRow particle) ∧
    (∀ q : ℚ, (k, PyVal.num q) ∈ particle → 0 ≤ q →
      (k, PyVal.num q) ∈ csvRow particle) := by
  constructor
  · intro q hmem hq
    rw [csvRow]
    refine List.mem_map.mpr ⟨(k, PyVal.num q),
      List.mem_filter.mpr ⟨hmem, by simpa using hk⟩, ?_⟩
    simp only
    rw [if_pos hq]
  · intro q hmem hq
    rw [csvRow]
    refine List.mem_map.mpr ⟨(k, PyVal.num q),
      List.mem_filter.mpr ⟨hmem, by simpa using hk⟩, ?_⟩
    simp only
    rw [if_neg (not_lt_of_le hq)]

/-- Concrete witness for C10 on a three-column record with one negative
and one nonnegative numeric field. -/
theorem negative_numeric_cells_empty_witness :
    ((("cap_mean_bg_subtracted" : String), PyVal.str "") ∈
      csvRow [("cap_mean_bg_subtracted", PyVal.num (-3)),
        ("n_pixels", PyVal.num 4),
        ("cap_peak_info", PyVal.peakInfo none)]) ∧
    ((("n_pixels" : String), PyVal.num 4) ∈
      csvRow [("cap_mean_bg_subtracted", PyVal.num (-3)),
        ("n_pixels", PyVal.num 4),
        ("cap_peak_info", PyVal.peakInfo none)]) :=
  ⟨(negative_numeric_cells_empty _ "cap_mean_bg_subtracted" (by decide)).1
      (-3) (by simp) (by norm_num),
    (negative_numeric_cells_empty _ "n_pixels" (by decide)).2
      4 (by simp) (by norm_num)⟩

/- ---------------------------------------------------------------------
   Per-Particle Enrichment Analyzer
   (analyze_particle_enrichment_from_rois, lines 241-316)
   --------------------------------------------------------------------- -/

/-- The intensity values of an image at the raster positions where the
mask is set, in row-major order: mirrors cap_intensity[mask > 0]. -/
def maskedValues (mask : ℕ × ℕ → Bool) (img : ℕ × ℕ → ℚ) (H W : ℕ) :
    List ℚ :=
  ((positionsOf H W).filter mask).map img

/-- Mirrors np.mean. -/
def meanQ (l : List ℚ) : ℚ := l.sum / l.length

/-- Ascending sort of rational samples, used by the median. -/
def sortQ : List ℚ → List ℚ := sortByB fun a b => decide (a ≤ b)

/-- Mirrors np.median: the middle element of the sorted samples, or the
average of the two middle elements for an even count. -/
def medianQ (l : List ℚ) : ℚ :=
  if l.length % 2 = 1 then (sortQ l).getD (l.length / 2) 0
  else ((sortQ l).getD (l.length / 2 - 1) 0 + (sortQ l).getD (l.length / 2) 0) / 2

/-- The population variance, whose square root np.std returns. -/
def varQ (l : List ℚ) : ℚ := (l.map fun x => (x - meanQ l) ^ 2).sum / l.length

/-- The background estimation method argument of the analyzer. -/
inductive Method where
  | minimum
  | gaussian_peaks
  deriving DecidableEq

/-- One per-particle result record, mirroring the dictionary built at
lines 293-308 of analyze_enrichment.py. -/
structure ParticleResult where
  particle_id : ℕ
  roi_name : String
  n_pixels : ℕ
  n_perimeter_pixels : ℕ
  cap_mean_raw : ℚ
  cap_median_raw : ℚ
  cap_background : ℚ
  cap_mean_bg_subtracted : ℚ
  cap_median_bg_subtracted : ℚ
  cap_perimeter_mean : ℚ
  cap_perimeter_std : ℚ
  cap_peak_info : Option PeakResult
  deriving DecidableEq

/-- The raw (unscaled) background of particle i: the perimeter minimum for
the minimum method, the peak-detection background for gaussian_peaks, and
the silent perimeter-mean fallback when peak detection returned nothing. -/
def bgRawAt (w : ℕ → ℚ) (rast : List (ℚ × ℚ) → ℕ × ℕ → Bool)
    (maskRois perimRois : List (String × List (ℚ × ℚ)))
    (img : ℕ × ℕ → ℚ) (H W : ℕ) (method : Method) (mb : Option ℚ)
    (i : ℕ) : ℚ :=
  match method with
  | Method.minimum => minQ (maskedValues (rast (perimRois.getD i ("", [])).2) img H W)
  | Method.gaussian_peaks =>
    match find_gaussian_peaks w (maskedValues (rast (perimRois.getD i ("", [])).2) img H W) 50 mb with
    | some r => r.background_value
    | none => meanQ (maskedValues (rast (perimRois.getD i ("", [])).2) img H W)

/-- The cap_peak_info entry of particle i. -/
def peakInfoAt (w : ℕ → ℚ) (rast : List (ℚ × ℚ) → ℕ × ℕ → Bool)
    (perimRois : List (String × List (ℚ × ℚ)))
    (img : ℕ × ℕ → ℚ) (H W : ℕ) (method : Method) (mb : Option ℚ)
    (i : ℕ) : Option PeakResult :=
  match method with
  | Method.minimum => none
  | Method.gaussian_peaks =>
    find_gaussian_peaks w (maskedValues (rast (perimRois.getD i ("", [])).2) img H W) 50 mb

/-- The body of one iteration of the analyzer's particle loop.  The
external collaborators are parameters: rast is the polygon rasterizer
(roi_to_mask's call into skimage.draw.polygon) and sqrtA is the square
root used by np.std.  A particle whose mask or perimeter selects no
pixels yields none (the loop's continue). -/
def analyzeParticleAt (w : ℕ → ℚ) (rast : List (ℚ × ℚ) → ℕ × ℕ → Bool)
    (sqrtA : ℚ → ℚ) (maskRois perimRois : List (String × List (ℚ × ℚ)))
    (img : ℕ × ℕ → ℚ) (H W : ℕ) (method : Method) (bgFactor : ℚ)
    (mb : Option ℚ) (i : ℕ) : Option ParticleResult :=
  if maskedValues (rast (maskRois.getD i ("", [])).2) img H W = [] ∨
      maskedValues (rast (perimRois.getD i ("", [])).2) img H W = [] then
    none
  else
    some
      { particle_id := i + 1
        roi_name := (maskRois.getD i ("", [])).1
        n_pixels := (maskedValues (rast (maskRois.getD i ("", [])).2) img H W).length
        n_perimeter_pixels :=
          (maskedValues (rast (perimRois.getD i ("", [])).2) img H W).length
        cap_mean_raw := meanQ (maskedValues (rast (maskRois.getD i ("", [])).2) img H W)
        cap_median_raw := medianQ (maskedValues (rast (maskRois.getD i ("", [])).2) img H W)
        cap_background := bgRawAt w rast maskRois perimRois img H W method mb i * bgFactor
        cap_mean_bg_subtracted :=
          meanQ ((maskedValues (rast (maskRois.getD i ("", [])).2) img H W).map
            fun x => x - bgRawAt w rast maskRois perimRois img H W method mb i * bgFactor)
        cap_median_bg_subtracted :=
          medianQ ((maskedValues (rast (maskRois.getD i ("", [])).2) img H W).map
            fun x => x - bgRawAt w rast maskRois perimRois img H W method mb i * bgFactor)
        cap_perimeter_mean := meanQ (maskedValues (rast (perimRois.getD i ("", [])).2) img H W)
        cap_perimeter_std := sqrtA (varQ (maskedValues (rast (perimRois.getD i ("", [])).2) img H W))
        cap_peak_info := peakInfoAt w rast perimRois img H W method mb i }

/-- The dictionary returned by analyze_particle_enrichment_from_rois. -/
structure AnalysisResults where
  particles : List ParticleResult
  n_particles : ℕ
  method : Method

/-- Shallow embedding of analyze_particle_enrichment_from_rois: iterate
over the particle indices in order, skip particles whose mask or
perimeter selects no pixels, and collect one record per kept particle. -/
def analyze_particle_enrichment_from_rois (w : ℕ → ℚ)
    (rast : List (ℚ × ℚ) → ℕ × ℕ → Bool) (sqrtA : ℚ → ℚ)
    (maskRois perimRois : List (String × List (ℚ × ℚ)))
    (img : ℕ × ℕ → ℚ) (H W : ℕ) (method : Method) (bgFactor : ℚ)
    (mb : Option ℚ) : AnalysisResults :=
  ⟨(List.range maskRois.length).filterMap
      (analyzeParticleAt w rast sqrtA maskRois perimRois img H W method
        bgFactor mb),
    maskRois.length, method⟩

theorem analyzeParticleAt_id {w : ℕ → ℚ}
    {rast : List (ℚ × ℚ) → ℕ × ℕ → Bool} {sqrtA : ℚ → ℚ}
    {maskRois perimRois : List (String × List (ℚ × ℚ))}
    {img : ℕ × ℕ → ℚ} {H W : ℕ} {method : Method} {bgFactor : ℚ}
    {mb : Option ℚ} {i : ℕ} {r : ParticleResult}
    (h : analyzeParticleAt w rast sqrtA maskRois perimRois img H W method
      bgFactor mb i = some r) : r.particle_id = i + 1 := by
  rw [analyzeParticleAt] at h
  split at h
  · exact absurd h (by simp)
  · have hr := Option.some.inj h
    subst hr
    rfl

/-- C9.  A particle whose mask or perimeter selects no pixels contributes
no record at all (no record carries its id), while every particle whose
mask and perimeter both select pixels contributes a record with its id;
the two parts together say that dropping a degenerate particle does not
disturb the processing of the others. -/
theorem degenerate_particles_dropped (w : ℕ → ℚ)
    (rast : List (ℚ × ℚ) → ℕ × ℕ → Bool) (sqrtA : ℚ → ℚ)
    (maskRois perimRois : List (String × List (ℚ × ℚ)))
    (img : ℕ × ℕ → ℚ) (H W : ℕ) (method : Method) (bgFactor : ℚ)
    (mb : Option ℚ) (hlen : maskRois.length = perimRois.length) (i : ℕ) :
    ((maskedValues (rast (maskRois.getD i ("", [])).2) img H W = [] ∨
      maskedValues (rast (perimRois.getD i ("", [])).2) img H W = []) →
      ∀ r ∈ (analyze_particle_enrichment_from_rois w rast sqrtA maskRois
          perimRois img H W method bgFactor mb).particles,
        r.particle_id ≠ i + 1) ∧
    (i < maskRois.length →
      maskedValues (rast (maskRois.getD i ("", [])).2) img H W ≠ [] →
      maskedValues (rast (perimRois.getD i ("", [])).2) img H W ≠ [] →
      ∃ r ∈ (analyze_particle_enrichment_from_rois w rast sqrtA maskRois
          perimRois img H W method bgFactor mb).particles,
        r.particle_id = i + 1) := by
  have hpart : (analyze_particle_enrichment_from_rois w rast sqrtA maskRois
      perimRois img H W method bgFactor mb).particles =
      (List.range maskRois.length).filterMap
        (analyzeParticleAt w rast sqrtA maskRois perimRois img H W method
          bgFactor mb) := rfl
  constructor
  · intro hempty r hr hid
    rw [hpart] at hr
    obtain ⟨j, _, hfj⟩ := List.mem_filterMap.mp hr
    have hjid := analyzeParticleAt_id hfj
    have hij : j = i := by omega
    subst hij
    rw [analyzeParticleAt, if_pos hempty] at hfj
    exact absurd hfj (by simp)
  · intro hi hm hp
    cases ho : analyzeParticleAt w rast sqrtA maskRois perimRois img H W
        method bgFactor mb i with
    | none =>
      rw [analyzeParticleAt, if_neg (not_or.mpr ⟨hm, hp⟩)] at ho
      exact absurd ho (by simp)
    | some r0 =>
      refine ⟨r0, ?_, analyzeParticleAt_id ho⟩
      rw [hpart]
      exact List.mem_filterMap.mpr ⟨i, List.mem_range.mpr hi, ho⟩

/-- Concrete rasterizer for witnesses: a pixel is inside the ROI when its
coordinates occur in the coordinate list. -/
def rastEx : List (ℚ × ℚ) → ℕ × ℕ → Bool :=
  fun coords p => decide (((p.1 : ℚ), (p.2 : ℚ)) ∈ coords)

/-- Concrete intensity image for witnesses. -/
def imgEx : ℕ × ℕ → ℚ := fun p => (p.1 : ℚ) + (p.2 : ℚ) + 7

/-- Concrete particle ROIs for witnesses; the second particle's ROI is
empty and rasterizes to no pixels. -/
def maskRoisEx : List (String × List (ℚ × ℚ)) :=
  [("m1", [(0, 0)]), ("m2", [])]

/-- Concrete perimeter ROIs for witnesses. -/
def perimRoisEx : List (String × List (ℚ × ℚ)) :=
  [("p1", [(0, 0), (1, 0)]), ("p2", [(0, 0)])]

/-- Concrete witness for C9: particle 2 (empty mask raster) is absent
from the results while particle 1 is present. -/
theorem degenerate_particles_dropped_witness :
    (∀ r ∈ (analyze_particle_enrichment_from_rois wG rastEx (fun q => q)
        maskRoisEx perimRoisEx imgEx 2 2 Method.minimum 1 none).particles,
      r.particle_id ≠ 2) ∧
    (∃ r ∈ (analyze_particle_enrichment_from_rois wG rastEx (fun q => q)
        maskRoisEx perimRoisEx imgEx 2 2 Method.minimum 1 none).particles,
      r.particle_id = 1) :=
  ⟨(degenerate_particles_dropped wG rastEx (fun q => q) maskRoisEx
      perimRoisEx imgEx 2 2 Method.minimum 1 none rfl 1).1 (by decide),
    (degenerate_particles_dropped wG rastEx (fun q => q) maskRoisEx
      perimRoisEx imgEx 2 2 Method.minimum 1 none rfl 0).2 (by decide)
      (by decide) (by decide)⟩

/-- C7.  The perimeter sample array of particle i consists of exactly the
intensity values at the pixels set in the rasterized perimeter ROI: its
length is the full pixel count of that raster, and every pixel that also
lies inside the particle mask raster still contributes its intensity (no
set difference against the particle mask is taken). -/
theorem perimeter_samples_from_roi_only (w : ℕ → ℚ)
    (rast : List (ℚ × ℚ) → ℕ × ℕ → Bool) (sqrtA : ℚ → ℚ)
    (maskRois perimRois : List (String × List (ℚ × ℚ)))
    (img : ℕ × ℕ → ℚ) (H W : ℕ) (method : Method) (bgFactor : ℚ)
    (mb : Option ℚ) (i : ℕ) (r : ParticleResult)
    (hr : analyzeParticleAt w rast sqrtA maskRois perimRois img H W method
      bgFactor mb i = some r) :
    r.n_perimeter_pixels =
      ((positionsOf H W).filter (rast (perimRois.getD i ("", [])).2)).length ∧
    ∀ p ∈ positionsOf H W,
      rast (perimRois.getD i ("", [])).2 p = true →
      rast (maskRois.getD i ("", [])).2 p = true →
      img p ∈ maskedValues (rast (perimRois.getD i ("", [])).2) img H W := by
  constructor
  · rw [analyzeParticleAt] at hr
    split at hr
    · exact absurd hr (by simp)
    · have hr2 := Option.some.inj hr
      subst hr2
      show (maskedValues (rast (perimRois.getD i ("", [])).2) img H W).length = _
      rw [maskedValues, List.length_map]
  · intro p hp hperim _
    rw [maskedValues]
    exact List.mem_map.mpr ⟨p, List.mem_filter.mpr ⟨hp, hperim⟩, rfl⟩

/-- Concrete witness for C7: the pixel at the origin lies inside both the
particle mask and the perimeter raster, and its intensity is part of the
perimeter sample array. -/
theorem perimeter_samples_from_roi_only_witness :
    imgEx (0, 0) ∈
      maskedValues (rastEx (perimRoisEx.getD 0 ("", [])).2) imgEx 2 2 := by
  cases ho : analyzeParticleAt wG rastEx (fun q => q) maskRoisEx perimRoisEx
      imgEx 2 2 Method.minimum 1 none 0 with
  | none => exact absurd ho (by decide)
  | some r0 =>
    exact (perimeter_samples_from_roi_only wG rastEx (fun q => q) maskRoisEx
      perimRoisEx imgEx 2 2 Method.minimum 1 none 0 r0 ho).2 (0, 0)
      (by decide) (by decide) (by decide)
